import Mathlib

/-!
Shallow embedding of the CAN debug overlay state engine from
`selfdrive/ui/widgets/can_debug_overlay.py`.

The Python state is:
  * `_messages : dict[(bus, address), CANMessage]` — modelled as an
    association list with in-place replacement (Python dicts keep the
    position of an existing key and append new keys; key sets are what the
    claims observe, and the dict's key-uniqueness is carried as an invariant);
  * `_message_order : deque(maxlen = MAX_MESSAGES * 2)` — modelled as a list
    whose right end is the most recently appended key, with the deque's
    discard-from-the-left-when-full behaviour made explicit;
  * `_can_sock : Optional[handle]` — modelled as a `Bool` (handle held or not);
  * `_debug_enabled : bool`, `_last_param_check : float`.

Time values are modelled as `Rat`: the code only compares monotonic-clock
differences against the exact constants 0.5 and 2.0.
Fallible transport (`messaging.drain_sock` inside `try/except`) is modelled by
passing the drain result as `Except Unit (List SockMsg)`.
-/

namespace CanOverlay

abbrev Key := Nat × Nat

/-- `MAX_MESSAGES = 20` from the source. -/
def MAX_MESSAGES : Nat := 20

/-- `MESSAGE_TIMEOUT = 2.0` from the source. -/
def MESSAGE_TIMEOUT : Rat := 2

/-- `CANMessage.__init__`: address, data, bus, timestamp, and
`checksum_valid` initialised to `True`. -/
structure CANMessage where
  address : Nat
  data : List Nat
  bus : Nat
  timestamp : Rat
  checksum_valid : Bool
deriving DecidableEq

/-- `CANMessage.is_stale`: `(current_time - self.timestamp) > MESSAGE_TIMEOUT`. -/
def CANMessage.is_stale (m : CANMessage) (current_time : Rat) : Bool :=
  decide (current_time - m.timestamp > MESSAGE_TIMEOUT)

/-- One entry of `msg.can`: fields `src`, `address`, `dat`. -/
structure CanRecord where
  src : Nat
  address : Nat
  dat : List Nat
deriving DecidableEq

/-- One record returned by `drain_sock`; the loop only processes
`msg.which() == 'can'`. -/
inductive SockMsg where
  | can (frames : List CanRecord)
  | other
deriving DecidableEq

/-- Python dict lookup `d[k]` / `k in d` on the association-list model. -/
def dictGet (k : Key) : List (Key × CANMessage) → Option CANMessage
  | [] => none
  | p :: rest => if p.1 = k then some p.2 else dictGet k rest

/-- Python dict assignment `d[k] = v`: replaces the entry in place when the
key exists, otherwise appends at the end. -/
def dictInsert (k : Key) (v : CANMessage) : List (Key × CANMessage) → List (Key × CANMessage)
  | [] => [(k, v)]
  | p :: rest => if p.1 = k then (k, v) :: rest else p :: dictInsert k v rest

/-- Python dict deletion `del d[k]` (keys are unique in a dict, so removing
every entry with the key is the same operation). -/
def dictAway (k : Key) : List (Key × CANMessage) → List (Key × CANMessage)
  | [] => []
  | p :: rest => if p.1 = k then dictAway k rest else p :: dictAway k rest

/-- The key view of the dict. -/
def dictKeys (m : List (Key × CANMessage)) : List Key := m.map (fun p => p.1)

/-- `deque.remove(x)`: removes the first (leftmost) occurrence. -/
def dequeRemove (x : Key) : List Key → List Key
  | [] => []
  | y :: rest => if y = x then rest else y :: dequeRemove x rest

/-- `deque.append(x)` on a deque with `maxlen`: appends at the right and, when
the length would exceed `maxlen`, discards from the left. -/
def dequeAppend (maxlen : Nat) (x : Key) (d : List Key) : List Key :=
  let d2 := d ++ [x]
  if maxlen < d2.length then d2.drop (d2.length - maxlen) else d2

/-- The overlay's mutable fields (`CANDebugOverlay.__init__`). -/
structure OverlayState where
  messages : List (Key × CANMessage)
  messageOrder : List Key
  canSock : Bool
  debugEnabled : Bool
  lastParamCheck : Rat
deriving DecidableEq

/-- Initial state from `__init__`: empty stores, no socket, flag false,
`_last_param_check = 0.0`. -/
def initState : OverlayState :=
  { messages := [], messageOrder := [], canSock := false,
    debugEnabled := false, lastParamCheck := 0 }

/-- The `CANMessage(...)` constructor call of `_update_messages` (lines
97–102): address and bus from the record, `timestamp = current_time`, and
`checksum_valid` defaulting to `True`. -/
def mkFrame (current_time : Rat) (r : CanRecord) : CANMessage :=
  { address := r.address, data := r.dat, bus := r.src,
    timestamp := current_time, checksum_valid := true }

/-- The body of the inner loop of `_update_messages` (lines 93–111): build the
key, replace the frame in `_messages` with timestamp `current_time`, and do the
guarded remove-then-append on `_message_order`. -/
def applyRecord (current_time : Rat) (s : OverlayState) (r : CanRecord) : OverlayState :=
  let key : Key := (r.src, r.address)
  let newMsg : CANMessage := mkFrame current_time r
  let order0 := if key ∈ s.messageOrder then dequeRemove key s.messageOrder else s.messageOrder
  { s with
    messages := dictInsert key newMsg s.messages,
    messageOrder := dequeAppend (MAX_MESSAGES * 2) key order0 }

/-- The outer loop of `_update_messages`: only messages with
`which() == 'can'` contribute, each applying its sub-frames in order. -/
def applyMsg (current_time : Rat) (s : OverlayState) (msg : SockMsg) : OverlayState :=
  match msg with
  | .can frames => frames.foldl (applyRecord current_time) s
  | .other => s

/-- The keys of the frames that are stale at `current_time`
(`stale_keys = [k for k, m in self._messages.items() if m.is_stale(current_time)]`). -/
def staleKeys (current_time : Rat) (m : List (Key × CANMessage)) : List Key :=
  (m.filter (fun p => p.2.is_stale current_time)).map (fun p => p.1)

/-- The stale-removal loop of `_update_messages` (lines 113–118): delete each
stale key from `_messages`, and from `_message_order` when present. -/
def sweepStale (current_time : Rat) (s : OverlayState) : OverlayState :=
  let ks := staleKeys current_time s.messages
  { s with
    messages := ks.foldl (fun m k => dictAway k m) s.messages,
    messageOrder := ks.foldl (fun o k => if k ∈ o then dequeRemove k o else o) s.messageOrder }

/-- `_update_messages`: no-op when there is no socket; otherwise the drain
result is either an error — caught by the `except` with no state change — or a
list of records that are applied and then swept for staleness. -/
def updateMessages (current_time : Rat) (drained : Except Unit (List SockMsg))
    (s : OverlayState) : OverlayState :=
  if s.canSock = false then s
  else
    match drained with
    | .error _ => s
    | .ok msgs => sweepStale current_time (msgs.foldl (applyMsg current_time) s)

/-- `_check_debug_enabled`: when more than 0.5 time-units have passed since the
last check, read the flag, then acquire the socket on false→true, or on
true→false drop the socket and clear both stores. Returns the (possibly
cached) flag value together with the new state. -/
def checkDebugEnabled (current_time : Rat) (flag : Bool) (s : OverlayState) :
    Bool × OverlayState :=
  if current_time - s.lastParamCheck > 1/2 then
    let s1 : OverlayState := { s with debugEnabled := flag, lastParamCheck := current_time }
    let s2 : OverlayState :=
      if s1.debugEnabled && !s1.canSock then { s1 with canSock := true }
      else if !s1.debugEnabled && s1.canSock then
        { s1 with canSock := false, messages := [], messageOrder := [] }
      else s1
    (s2.debugEnabled, s2)
  else (s.debugEnabled, s)

/-- Display style of one rendered row. -/
inductive Style where
  | fresh
  | stale
  | invalid
deriving DecidableEq

/-- The colour choice of `_render` (lines 177–182): stale wins, then the
`checksum_valid` flag, else fresh. -/
def styleFor (m : CANMessage) (current_time : Rat) : Style :=
  if m.is_stale current_time then .stale
  else if !m.checksum_valid then .invalid
  else .fresh

/-- `list(self._message_order)[-MAX_MESSAGES:]`. -/
def takeLast (n : Nat) (l : List Key) : List Key := l.drop (l.length - n)

/-- The data content of the message loop of `_render` (lines 161–182): the last
`MAX_MESSAGES` keys of the order deque, walked most-recent first, keys absent
from `_messages` skipped, each present key paired with its frame and style. -/
def renderRows (current_time : Rat) (s : OverlayState) :
    List (Key × CANMessage × Style) :=
  (takeLast MAX_MESSAGES s.messageOrder).reverse.filterMap (fun k =>
    match dictGet k s.messages with
    | none => none
    | some m => some (k, m, styleFor m current_time))

/-- The render pass (lines 156–190) as a state transformer: the source contains
no assignment to any of the overlay's fields in this span, so threading the
state through every statement returns it unchanged. -/
def renderPass (current_time : Rat) (s : OverlayState) :
    List (Key × CANMessage × Style) × OverlayState :=
  (renderRows current_time s, s)

/-- States reachable through the overlay's two mutating operations, from the
freshly constructed widget. (`_render` calls `_check_debug_enabled` and then
`_update_messages`; allowing the two steps in any order only enlarges the set.) -/
inductive Reachable : OverlayState → Prop where
  | init : Reachable initState
  | check (current_time : Rat) (flag : Bool) {s : OverlayState} :
      Reachable s → Reachable (checkDebugEnabled current_time flag s).2
  | update (current_time : Rat) (drained : Except Unit (List SockMsg)) {s : OverlayState} :
      Reachable s → Reachable (updateMessages current_time drained s)

/-- The last record of `recs` whose (bus, identifier) key is `k`, if any:
the record whose payload "wins" under last-write-wins. -/
def lastRecordForKey (k : Key) (recs : List CanRecord) : Option CanRecord :=
  recs.foldl (fun acc r => if (r.src, r.address) = k then some r else acc) none

/-! ### Concrete states used to instantiate the theorems -/

/-- The state after the first flag poll observes `ShowDebugInfo = true` at
time 1: socket acquired, stores empty. -/
def sActive : OverlayState := (checkDebugEnabled 1 true initState).2

/-- 41 records with 41 distinct keys (bus 0, addresses 0..40). -/
def recs41 : List CanRecord := (List.range 41).map (fun i => ⟨0, i, []⟩)

/-- The active state after draining the 41 distinct-key records in one tick. -/
def s41 : OverlayState := updateMessages 1 (.ok [.can recs41]) sActive

/-- 50 records with 50 distinct keys (bus 0, addresses 0..49). -/
def recs50 : List CanRecord := (List.range 50).map (fun i => ⟨0, i, [i]⟩)

/-- The active state after draining the 50 distinct-key records in one tick. -/
def s50 : OverlayState := updateMessages 1 (.ok [.can recs50]) sActive

/-- A hand-built active state holding one frame, used to exercise gate
clearing and the sweep at concrete inputs. -/
def sJunk : OverlayState :=
  { messages := [((0, 291),
      { address := 291, data := [17, 34], bus := 0, timestamp := 1, checksum_valid := true })],
    messageOrder := [(0, 291)],
    canSock := true, debugEnabled := true, lastParamCheck := 1 }

/-- A hand-built state with one stale frame (timestamp 0) and one fresh frame
(timestamp 1), observed at time 5/2. -/
def sSweep : OverlayState :=
  { messages :=
      [((0, 1), { address := 1, data := [1], bus := 0, timestamp := 0, checksum_valid := true }),
       ((0, 2), { address := 2, data := [2], bus := 0, timestamp := 1, checksum_valid := true })],
    messageOrder := [(0, 1), (0, 2)],
    canSock := true, debugEnabled := true, lastParamCheck := 1 }

/-- A hand-built state whose order deque holds two keys, used to exercise
move-to-front on an already-present key. -/
def sOrder : OverlayState :=
  { messages :=
      [((0, 5), { address := 5, data := [], bus := 0, timestamp := 0, checksum_valid := true }),
       ((0, 6), { address := 6, data := [], bus := 0, timestamp := 0, checksum_valid := true })],
    messageOrder := [(0, 5), (0, 6)],
    canSock := true, debugEnabled := true, lastParamCheck := 0 }

/-! ### Association-list (dict) lemmas -/

theorem dictGet_dictInsert_self (k : Key) (v : CANMessage) (m : List (Key × CANMessage)) :
    dictGet k (dictInsert k v m) = some v := by
  induction m with
  | nil => simp [dictInsert, dictGet]
  | cons p rest ih =>
    by_cases h : p.1 = k
    · simp [dictInsert, h, dictGet]
    · simp [dictInsert, h, dictGet, ih]

theorem dictGet_dictInsert_ne (k2 k : Key) (v : CANMessage) (m : List (Key × CANMessage))
    (h : k2 ≠ k) : dictGet k2 (dictInsert k v m) = dictGet k2 m := by
  induction m with
  | nil => simp [dictInsert, dictGet, Ne.symm h]
  | cons p rest ih =>
    by_cases hp : p.1 = k
    · have h1 : ¬ k = k2 := Ne.symm h
      have h2 : ¬ p.1 = k2 := fun hc => h1 (hp.symm.trans hc)
      simp [dictInsert, hp, dictGet, h1, h2]
    · simp [dictInsert, hp, dictGet, ih]

theorem mem_dictKeys_iff (k : Key) (m : List (Key × CANMessage)) :
    k ∈ dictKeys m ↔ ∃ v, dictGet k m = some v := by
  induction m with
  | nil => simp [dictKeys, dictGet]
  | cons p rest ih =>
    by_cases h : p.1 = k
    · simp [dictKeys, dictGet, h]
    · simp only [dictKeys, List.map_cons, List.mem_cons, dictGet, h, if_false]
      constructor
      · intro hmem
        rcases hmem with heq | hmem
        · exact absurd heq.symm h
        · exact ih.mp hmem
      · intro hv
        exact Or.inr (ih.mpr hv)

theorem mem_dictKeys_dictInsert (k2 k : Key) (v : CANMessage) (m : List (Key × CANMessage)) :
    k2 ∈ dictKeys (dictInsert k v m) ↔ k2 = k ∨ k2 ∈ dictKeys m := by
  induction m with
  | nil => simp [dictInsert, dictKeys]
  | cons p rest ih =>
    by_cases h : p.1 = k
    · subst h
      simp [dictInsert, dictKeys]
    · simp only [dictInsert, h, if_false, dictKeys, List.map_cons, List.mem_cons] at *
      rw [ih]
      tauto

theorem dictKeys_nodup_dictInsert (k : Key) (v : CANMessage) (m : List (Key × CANMessage))
    (h : (dictKeys m).Nodup) : (dictKeys (dictInsert k v m)).Nodup := by
  induction m with
  | nil => simp [dictInsert, dictKeys]
  | cons p rest ih =>
    simp only [dictKeys, List.map_cons, List.nodup_cons] at h
    by_cases hp : p.1 = k
    · subst hp
      simpa [dictInsert, dictKeys] using h
    · simp only [dictInsert, hp, if_false, dictKeys, List.map_cons, List.nodup_cons]
      refine ⟨fun hc => ?_, ih h.2⟩
      rw [show (dictInsert k v rest).map (fun p => p.1) = dictKeys (dictInsert k v rest) from rfl,
        mem_dictKeys_dictInsert] at hc
      rcases hc with heq | hmem
      · exact hp heq
      · exact h.1 hmem

theorem mem_dictInsert (p : Key × CANMessage) (k : Key) (v : CANMessage)
    (m : List (Key × CANMessage)) (h : p ∈ dictInsert k v m) : p = (k, v) ∨ p ∈ m := by
  induction m with
  | nil => simpa [dictInsert] using h
  | cons q rest ih =>
    by_cases hq : q.1 = k
    · simp only [dictInsert, hq, if_true, List.mem_cons] at h
      rcases h with h | h
      · exact Or.inl h
      · exact Or.inr (List.mem_cons_of_mem _ h)
    · simp only [dictInsert, hq, if_false, List.mem_cons] at h
      rcases h with h | h
      · exact Or.inr (h ▸ List.mem_cons_self _ _)
      · rcases ih h with h2 | h2
        · exact Or.inl h2
        · exact Or.inr (List.mem_cons_of_mem _ h2)

theorem dictGet_dictAway (k2 k : Key) (m : List (Key × CANMessage)) :
    dictGet k2 (dictAway k m) = if k2 = k then none else dictGet k2 m := by
  induction m with
  | nil => simp [dictAway, dictGet]
  | cons p rest ih =>
    by_cases hp : p.1 = k
    · by_cases h2 : k2 = k
      · subst h2
        simp [dictAway, hp, ih]
      · have hne : ¬ k = k2 := fun hc => h2 hc.symm
        simp [dictAway, hp, ih, h2, dictGet, hne]
    · by_cases hpk : p.1 = k2
      · have h2 : ¬ k2 = k := fun hc => hp (hpk.trans hc)
        simp [dictAway, hp, dictGet, hpk, h2]
      · simp [dictAway, hp, dictGet, hpk, ih]

theorem mem_dictAway (p : Key × CANMessage) (k : Key) (m : List (Key × CANMessage))
    (h : p ∈ dictAway k m) : p ∈ m := by
  induction m with
  | nil => simp [dictAway] at h
  | cons q rest ih =>
    by_cases hq : q.1 = k
    · simp only [dictAway, hq, if_true] at h
      exact List.mem_cons_of_mem _ (ih h)
    · simp only [dictAway, hq, if_false, List.mem_cons] at h
      rcases h with h | h
      · exact h ▸ List.mem_cons_self _ _
      · exact List.mem_cons_of_mem _ (ih h)

theorem dictKeys_dictAway_sublist (k : Key) (m : List (Key × CANMessage)) :
    (dictKeys (dictAway k m)).Sublist (dictKeys m) := by
  induction m with
  | nil => simp [dictAway, dictKeys]
  | cons q rest ih =>
    by_cases hq : q.1 = k
    · simp only [dictAway, hq, if_true, dictKeys, List.map_cons]
      exact ih.cons _
    · simp only [dictAway, hq, if_false, dictKeys, List.map_cons]
      exact ih.cons₂ _

theorem dictGet_mem (k : Key) (v : CANMessage) (m : List (Key × CANMessage))
    (h : dictGet k m = some v) : (k, v) ∈ m := by
  induction m with
  | nil => simp [dictGet] at h
  | cons p rest ih =>
    by_cases hp : p.1 = k
    · simp only [dictGet, hp, if_true, Option.some.injEq] at h
      subst h
      exact (Prod.ext hp rfl : p = (k, p.2)) ▸ List.mem_cons_self _ _
    · simp only [dictGet, hp, if_false] at h
      exact List.mem_cons_of_mem _ (ih h)

theorem mem_dictGet_of_nodup (k : Key) (v : CANMessage) (m : List (Key × CANMessage))
    (hnd : (dictKeys m).Nodup) (h : (k, v) ∈ m) : dictGet k m = some v := by
  induction m with
  | nil => simp at h
  | cons p rest ih =>
    simp only [dictKeys, List.map_cons, List.nodup_cons] at hnd
    rcases List.mem_cons.mp h with h | h
    · subst h
      simp [dictGet]
    · have hne : p.1 ≠ k := by
        intro hc
        exact hnd.1 (hc ▸ ((mem_dictKeys_iff k rest).mpr
          ⟨v, ih hnd.2 h⟩ : k ∈ dictKeys rest))
      simp [dictGet, hne, ih hnd.2 h]

/-! ### Deque lemmas -/

theorem dequeRemove_sublist (x : Key) (l : List Key) : (dequeRemove x l).Sublist l := by
  induction l with
  | nil => simp [dequeRemove]
  | cons y rest ih =>
    by_cases h : y = x
    · simp only [dequeRemove, h, if_true]
      exact (List.sublist_cons_self x rest).trans (h ▸ List.Sublist.refl _)
    · simp only [dequeRemove, h, if_false]
      exact ih.cons₂ _

theorem dequeRemove_of_not_mem (x : Key) (l : List Key) (h : x ∉ l) : dequeRemove x l = l := by
  induction l with
  | nil => rfl
  | cons y rest ih =>
    simp only [List.mem_cons, not_or] at h
    simp [dequeRemove, Ne.symm h.1, ih h.2]

theorem nodup_dequeRemove (x : Key) (l : List Key) (h : l.Nodup) : (dequeRemove x l).Nodup :=
  (dequeRemove_sublist x l).nodup h

theorem mem_dequeRemove_of_nodup (x y : Key) (l : List Key) (hnd : l.Nodup) :
    y ∈ dequeRemove x l ↔ y ∈ l ∧ y ≠ x := by
  induction l with
  | nil => simp [dequeRemove]
  | cons z rest ih =>
    simp only [List.nodup_cons] at hnd
    by_cases hz : z = x
    · subst hz
      simp only [dequeRemove, if_true, List.mem_cons]
      constructor
      · intro hmem
        exact ⟨Or.inr hmem, fun hc => hnd.1 (hc ▸ hmem)⟩
      · rintro ⟨hmem | hmem, hne⟩
        · exact absurd hmem hne
        · exact hmem
    · simp only [dequeRemove, hz, if_false, List.mem_cons, ih hnd.2]
      constructor
      · rintro (heq | ⟨hmem, hne⟩)
        · exact ⟨Or.inl heq, fun hc => hz (heq.symm.trans hc)⟩
        · exact ⟨Or.inr hmem, hne⟩
      · rintro ⟨heq | hmem, hne⟩
        · exact Or.inl heq
        · exact Or.inr ⟨hmem, hne⟩

theorem mem_dequeAppend (maxlen : Nat) (x y : Key) (d : List Key)
    (h : y ∈ dequeAppend maxlen x d) : y = x ∨ y ∈ d := by
  unfold dequeAppend at h
  by_cases hlen : maxlen < (d ++ [x]).length
  · simp only [hlen, if_true] at h
    have h2 : y ∈ d ++ [x] := (List.drop_sublist _ _).mem h
    simpa [or_comm] using List.mem_append.mp h2
  · simp only [hlen, if_false] at h
    simpa [or_comm] using List.mem_append.mp h

theorem nodup_dequeAppend (maxlen : Nat) (x : Key) (d : List Key)
    (hx : x ∉ d) (hnd : d.Nodup) : (dequeAppend maxlen x d).Nodup := by
  have h2 : (d ++ [x]).Nodup := by
    simp [List.nodup_append, hnd, hx]
  unfold dequeAppend
  by_cases hlen : maxlen < (d ++ [x]).length
  · simp only [hlen, if_true]
    exact (List.drop_sublist _ _).nodup h2
  · simp only [hlen, if_false]
    exact h2

theorem length_dequeAppend_le (maxlen : Nat) (x : Key) (d : List Key)
    (h : d.length ≤ maxlen) : (dequeAppend maxlen x d).length ≤ maxlen := by
  unfold dequeAppend
  by_cases hlen : maxlen < (d ++ [x]).length
  · simp only [hlen, if_true, List.length_drop]
    omega
  · simp only [hlen, if_false]
    simp only [List.length_append, List.length_cons, List.length_nil] at hlen ⊢
    omega

theorem getLast_dequeAppend (maxlen : Nat) (x : Key) (d : List Key) (hm : 1 ≤ maxlen) :
    (dequeAppend maxlen x d).getLast? = some x := by
  unfold dequeAppend
  by_cases hlen : maxlen < (d ++ [x]).length
  · simp only [hlen, if_true]
    have hdrop : (d ++ [x]).length - maxlen ≤ d.length := by
      simp only [List.length_append, List.length_cons, List.length_nil]
      omega
    rw [List.drop_append_of_le_length hdrop, List.getLast?_concat]
  · simp only [hlen, if_false]
    exact List.getLast?_concat d

theorem mem_self_dequeAppend (maxlen : Nat) (x : Key) (d : List Key) (hm : 1 ≤ maxlen) :
    x ∈ dequeAppend maxlen x d :=
  List.mem_of_getLast?_eq_some (getLast_dequeAppend maxlen x d hm)

theorem count_one_of_nodup_mem (x : Key) (l : List Key) (hnd : l.Nodup) (hmem : x ∈ l) :
    l.count x = 1 := by
  induction l with
  | nil => simp at hmem
  | cons y rest ih =>
    simp only [List.nodup_cons] at hnd
    rcases List.mem_cons.mp hmem with heq | hmem2
    · subst heq
      rw [List.count_cons_self, List.count_eq_zero.mpr hnd.1]
    · have hne : x ≠ y := fun hc => hnd.1 (hc ▸ hmem2)
      rw [List.count_cons_of_ne hne, ih hnd.2 hmem2]

/-! ### Lemmas about the sweep folds -/

theorem dictGet_foldAway (ks : List Key) (k : Key) (m : List (Key × CANMessage)) :
    dictGet k (ks.foldl (fun m2 k2 => dictAway k2 m2) m) =
      if k ∈ ks then none else dictGet k m := by
  induction ks generalizing m with
  | nil => simp
  | cons k2 rest ih =>
    simp only [List.foldl_cons, ih, dictGet_dictAway, List.mem_cons]
    by_cases h1 : k ∈ rest
    · simp [h1]
    · by_cases h2 : k = k2 <;> simp [h1, h2]

theorem mem_foldAway (ks : List Key) (p : Key × CANMessage) :
    ∀ m : List (Key × CANMessage), p ∈ ks.foldl (fun m2 k2 => dictAway k2 m2) m → p ∈ m := by
  induction ks with
  | nil =>
    intro m h
    simpa using h
  | cons k2 rest ih =>
    intro m h
    simp only [List.foldl_cons] at h
    exact mem_dictAway p k2 m (ih (dictAway k2 m) h)

theorem dictKeys_foldAway_sublist (ks : List Key) (m : List (Key × CANMessage)) :
    (dictKeys (ks.foldl (fun m2 k2 => dictAway k2 m2) m)).Sublist (dictKeys m) := by
  induction ks generalizing m with
  | nil => simp [List.Sublist.refl]
  | cons k2 rest ih =>
    simp only [List.foldl_cons]
    exact (ih (dictAway k2 m)).trans (dictKeys_dictAway_sublist k2 m)

theorem foldRemove_sublist (ks : List Key) (l : List Key) :
    (ks.foldl (fun o k => if k ∈ o then dequeRemove k o else o) l).Sublist l := by
  induction ks generalizing l with
  | nil => simp [List.Sublist.refl]
  | cons k2 rest ih =>
    simp only [List.foldl_cons]
    by_cases h : k2 ∈ l
    · simp only [h, if_true]
      exact (ih _).trans (dequeRemove_sublist k2 l)
    · simp only [h, if_false]
      exact ih l

theorem mem_foldRemove_of_nodup (ks : List Key) (y : Key) (l : List Key) (hnd : l.Nodup) :
    y ∈ ks.foldl (fun o k => if k ∈ o then dequeRemove k o else o) l ↔ y ∈ l ∧ y ∉ ks := by
  induction ks generalizing l with
  | nil => simp
  | cons k2 rest ih =>
    simp only [List.foldl_cons, List.mem_cons]
    by_cases h : k2 ∈ l
    · simp only [h, if_true]
      rw [ih _ (nodup_dequeRemove k2 l hnd), mem_dequeRemove_of_nodup k2 y l hnd]
      constructor
      · rintro ⟨⟨hy, hne⟩, hrest⟩
        exact ⟨hy, by simp [hne, hrest]⟩
      · rintro ⟨hy, hks⟩
        simp only [not_or] at hks
        exact ⟨⟨hy, hks.1⟩, hks.2⟩
    · simp only [h, if_false]
      rw [ih l hnd]
      constructor
      · rintro ⟨hy, hrest⟩
        refine ⟨hy, ?_⟩
        simp only [not_or]
        exact ⟨fun hc => h (hc ▸ hy), hrest⟩
      · rintro ⟨hy, hks⟩
        simp only [not_or] at hks
        exact ⟨hy, hks.2⟩

/-- A key is in `staleKeys` exactly when some entry holds it with a stale frame. -/
theorem mem_staleKeys_iff (t : Rat) (k : Key) (m : List (Key × CANMessage)) :
    k ∈ staleKeys t m ↔ ∃ v, (k, v) ∈ m ∧ v.is_stale t = true := by
  simp only [staleKeys, List.mem_map, List.mem_filter]
  constructor
  · rintro ⟨p, ⟨hmem, hst⟩, hk⟩
    exact ⟨p.2, by rwa [show (k, p.2) = p from Prod.ext hk.symm rfl], hst⟩
  · rintro ⟨v, hmem, hst⟩
    exact ⟨(k, v), ⟨hmem, hst⟩, rfl⟩

/-! ### The state invariant -/

/-- Structural well-formedness of a reachable overlay state: the order deque
has no duplicate keys and respects its capacity, every tracked key has a frame
in the store, the store's key list is duplicate-free (it models a Python dict),
and every stored frame carries `checksum_valid = true`. -/
def Inv (s : OverlayState) : Prop :=
  s.messageOrder.Nodup ∧
  s.messageOrder.length ≤ MAX_MESSAGES * 2 ∧
  (∀ k ∈ s.messageOrder, k ∈ dictKeys s.messages) ∧
  (dictKeys s.messages).Nodup ∧
  (∀ p ∈ s.messages, p.2.checksum_valid = true)

theorem inv_initState : Inv initState := by
  refine ⟨List.nodup_nil, by simp [initState], ?_, ?_, ?_⟩ <;> simp [initState, dictKeys]

theorem inv_applyRecord (t : Rat) (s : OverlayState) (r : CanRecord) (h : Inv s) :
    Inv (applyRecord t s r) := by
  obtain ⟨hnd, hlen, hsub, hknd, hval⟩ := h
  have happly : applyRecord t s r = { s with
      messages := dictInsert (r.src, r.address)
        { address := r.address, data := r.dat, bus := r.src,
          timestamp := t, checksum_valid := true } s.messages,
      messageOrder := dequeAppend (MAX_MESSAGES * 2) (r.src, r.address)
        (if (r.src, r.address) ∈ s.messageOrder then
          dequeRemove (r.src, r.address) s.messageOrder else s.messageOrder) } := rfl
  rw [happly]
  unfold Inv
  dsimp only
  have horder0 :
      (if (r.src, r.address) ∈ s.messageOrder then
          dequeRemove (r.src, r.address) s.messageOrder else s.messageOrder).Nodup ∧
      (r.src, r.address) ∉ (if (r.src, r.address) ∈ s.messageOrder then
          dequeRemove (r.src, r.address) s.messageOrder else s.messageOrder) ∧
      (if (r.src, r.address) ∈ s.messageOrder then
          dequeRemove (r.src, r.address) s.messageOrder else
          s.messageOrder).length ≤ MAX_MESSAGES * 2 := by
    by_cases hmem : (r.src, r.address) ∈ s.messageOrder
    · rw [if_pos hmem]
      exact ⟨nodup_dequeRemove _ _ hnd,
        fun hc => ((mem_dequeRemove_of_nodup _ _ _ hnd).mp hc).2 rfl,
        le_trans (dequeRemove_sublist _ _).length_le hlen⟩
    · rw [if_neg hmem]
      exact ⟨hnd, hmem, hlen⟩
  refine ⟨?_, ?_, ?_, ?_, ?_⟩
  · exact nodup_dequeAppend _ _ _ horder0.2.1 horder0.1
  · exact length_dequeAppend_le _ _ _ horder0.2.2
  · intro k hk
    rcases mem_dequeAppend _ _ k _ hk with heq | hmem
    · subst heq
      rw [mem_dictKeys_dictInsert]
      exact Or.inl rfl
    · have hk2 : k ∈ s.messageOrder := by
        by_cases hcase : (r.src, r.address) ∈ s.messageOrder
        · rw [if_pos hcase] at hmem
          exact (dequeRemove_sublist _ _).mem hmem
        · rwa [if_neg hcase] at hmem
      rw [mem_dictKeys_dictInsert]
      exact Or.inr (hsub k hk2)
  · exact dictKeys_nodup_dictInsert _ _ _ hknd
  · intro p hp
    rcases mem_dictInsert p _ _ _ hp with heq | hmem
    · rw [heq]
    · exact hval p hmem

theorem inv_foldApply (t : Rat) (recs : List CanRecord) (s : OverlayState) (h : Inv s) :
    Inv (recs.foldl (applyRecord t) s) := by
  induction recs generalizing s with
  | nil => simpa using h
  | cons r rest ih =>
    simp only [List.foldl_cons]
    exact ih _ (inv_applyRecord t s r h)

theorem inv_applyMsg (t : Rat) (msg : SockMsg) (s : OverlayState) (h : Inv s) :
    Inv (applyMsg t s msg) := by
  cases msg with
  | can frames => exact inv_foldApply t frames s h
  | other => exact h

theorem inv_foldMsgs (t : Rat) (msgs : List SockMsg) (s : OverlayState) (h : Inv s) :
    Inv (msgs.foldl (applyMsg t) s) := by
  induction msgs generalizing s with
  | nil => simpa using h
  | cons msg rest ih =>
    simp only [List.foldl_cons]
    exact ih _ (inv_applyMsg t msg s h)

theorem inv_sweepStale (t : Rat) (s : OverlayState) (h : Inv s) : Inv (sweepStale t s) := by
  obtain ⟨hnd, hlen, hsub, hknd, hval⟩ := h
  refine ⟨?_, ?_, ?_, ?_, ?_⟩
  · exact (foldRemove_sublist _ _).nodup hnd
  · exact le_trans (foldRemove_sublist _ _).length_le hlen
  · intro k hk
    have hk2 := (mem_foldRemove_of_nodup _ k _ hnd).mp hk
    have hk3 := hsub k hk2.1
    rcases (mem_dictKeys_iff k s.messages).mp hk3 with ⟨v, hv⟩
    rw [mem_dictKeys_iff]
    refine ⟨v, ?_⟩
    show dictGet k ((staleKeys t s.messages).foldl (fun m2 k2 => dictAway k2 m2)
      s.messages) = some v
    rw [dictGet_foldAway]
    simp [hk2.2, hv]
  · exact (dictKeys_foldAway_sublist _ _).nodup hknd
  · intro p hp
    exact hval p (mem_foldAway _ p _ hp)

theorem inv_checkDebugEnabled (t : Rat) (flag : Bool) (s : OverlayState) (h : Inv s) :
    Inv (checkDebugEnabled t flag s).2 := by
  unfold checkDebugEnabled
  by_cases htime : t - s.lastParamCheck > 1/2
  · simp only [htime, if_true]
    by_cases h1 : flag && !s.canSock
    · simp only [h1, if_true]
      exact h
    · simp only [h1, if_false]
      by_cases h2 : !flag && s.canSock
      · simp only [h2, if_true]
        exact ⟨List.nodup_nil, by simp, by simp, by simp [dictKeys], by simp⟩
      · simp only [h2, if_false]
        exact h
  · simp only [htime, if_false]
    exact h

theorem inv_updateMessages (t : Rat) (drained : Except Unit (List SockMsg))
    (s : OverlayState) (h : Inv s) : Inv (updateMessages t drained s) := by
  unfold updateMessages
  by_cases hsock : s.canSock = false
  · simp only [hsock, if_true]
    exact h
  · simp only [hsock, if_false]
    cases drained with
    | error e => exact h
    | ok msgs => exact inv_sweepStale t _ (inv_foldMsgs t msgs s h)

theorem reachable_inv (s : OverlayState) (h : Reachable s) : Inv s := by
  induction h with
  | init => exact inv_initState
  | check t flag h ih => exact inv_checkDebugEnabled t flag _ ih
  | update t drained h ih => exact inv_updateMessages t drained _ ih

/-! ### Last-write-wins lemmas -/

theorem lastRecordForKey_foldl (k : Key) (recs : List CanRecord) :
    ∀ acc : Option CanRecord,
      recs.foldl (fun acc2 r => if (r.src, r.address) = k then some r else acc2) acc =
        (lastRecordForKey k recs).or acc := by
  induction recs with
  | nil =>
    intro acc
    simp [lastRecordForKey]
  | cons r rest ih =>
    intro acc
    simp only [List.foldl_cons]
    rw [ih, show lastRecordForKey k (r :: rest) =
      rest.foldl (fun acc2 r2 => if (r2.src, r2.address) = k then some r2 else acc2)
        (if (r.src, r.address) = k then some r else none) from rfl, ih]
    cases hrest : lastRecordForKey k rest with
    | some r2 => simp [Option.or]
    | none =>
      by_cases hr : (r.src, r.address) = k <;> simp [hr, Option.or]

theorem dictGet_foldApply (k : Key) (t : Rat) (recs : List CanRecord) :
    ∀ s : OverlayState,
      dictGet k ((recs.foldl (applyRecord t) s).messages) =
        ((lastRecordForKey k recs).map (mkFrame t)).or (dictGet k s.messages) := by
  induction recs with
  | nil =>
    intro s
    simp [lastRecordForKey]
  | cons r rest ih =>
    intro s
    simp only [List.foldl_cons]
    rw [ih (applyRecord t s r)]
    have hcons : lastRecordForKey k (r :: rest) =
        (lastRecordForKey k rest).or (if (r.src, r.address) = k then some r else none) := by
      rw [show lastRecordForKey k (r :: rest) =
        rest.foldl (fun acc2 r2 => if (r2.src, r2.address) = k then some r2 else acc2)
          (if (r.src, r.address) = k then some r else none) from rfl]
      exact lastRecordForKey_foldl k rest _
    rw [hcons]
    cases hrest : lastRecordForKey k rest with
    | some r2 => simp [Option.or]
    | none =>
      have hmsgs : (applyRecord t s r).messages =
          dictInsert (r.src, r.address) (mkFrame t r) s.messages := rfl
      by_cases hr : (r.src, r.address) = k
      · subst hr
        simp [Option.or, hmsgs, dictGet_dictInsert_self]
      · have hne : k ≠ (r.src, r.address) := fun hc => hr hc.symm
        simp [Option.or, hmsgs, dictGet_dictInsert_ne _ _ _ _ hne, hr]

/-! ### Sweep characterisation -/

theorem sweepStale_messages_iff (t : Rat) (s : OverlayState)
    (hknd : (dictKeys s.messages).Nodup) (k : Key) (v : CANMessage) :
    dictGet k (sweepStale t s).messages = some v ↔
      dictGet k s.messages = some v ∧ v.is_stale t = false := by
  show dictGet k ((staleKeys t s.messages).foldl (fun m2 k2 => dictAway k2 m2)
    s.messages) = some v ↔ _
  rw [dictGet_foldAway]
  by_cases hst : k ∈ staleKeys t s.messages
  · rw [if_pos hst]
    constructor
    · intro hc
      exact absurd hc (by simp)
    · rintro ⟨hget, hfresh⟩
      rcases (mem_staleKeys_iff t k _).mp hst with ⟨v2, hv2mem, hv2st⟩
      have hv2 := mem_dictGet_of_nodup k v2 _ hknd hv2mem
      rw [hget] at hv2
      rw [Option.some.injEq] at hv2
      rw [← hv2] at hv2st
      rw [hv2st] at hfresh
      exact absurd hfresh (by simp)
  · rw [if_neg hst]
    constructor
    · intro hget
      refine ⟨hget, ?_⟩
      by_contra hc
      rw [Bool.not_eq_false] at hc
      exact hst ((mem_staleKeys_iff t k _).mpr ⟨v, dictGet_mem _ _ _ hget, hc⟩)
    · exact fun h => h.1

theorem sweepStale_order_iff (t : Rat) (s : OverlayState)
    (hnd : s.messageOrder.Nodup) (hknd : (dictKeys s.messages).Nodup) (k : Key) :
    k ∈ (sweepStale t s).messageOrder ↔
      k ∈ s.messageOrder ∧
        ¬ ∃ v, dictGet k s.messages = some v ∧ v.is_stale t = true := by
  show k ∈ (staleKeys t s.messages).foldl
    (fun o k2 => if k2 ∈ o then dequeRemove k2 o else o) s.messageOrder ↔ _
  rw [mem_foldRemove_of_nodup _ _ _ hnd]
  have hiff : k ∈ staleKeys t s.messages ↔
      ∃ v, dictGet k s.messages = some v ∧ v.is_stale t = true := by
    rw [mem_staleKeys_iff]
    constructor
    · rintro ⟨v, hmem, hstale⟩
      exact ⟨v, mem_dictGet_of_nodup k v _ hknd hmem, hstale⟩
    · rintro ⟨v, hget, hstale⟩
      exact ⟨v, dictGet_mem _ _ _ hget, hstale⟩
  rw [hiff]

/-! ### Render lemmas -/

theorem mem_renderRows (t : Rat) (s : OverlayState) (k : Key) (m : CANMessage) (st : Style)
    (h : (k, m, st) ∈ renderRows t s) :
    dictGet k s.messages = some m ∧ st = styleFor m t := by
  unfold renderRows at h
  rcases List.mem_filterMap.mp h with ⟨k2, hk2, hf⟩
  cases hget : dictGet k2 s.messages with
  | none =>
    rw [hget] at hf
    simp at hf
  | some m2 =>
    rw [hget] at hf
    simp only [Option.some.injEq, Prod.mk.injEq] at hf
    obtain ⟨hk, hm, hst⟩ := hf
    subst hk
    rw [← hm, ← hst]
    exact ⟨hget, rfl⟩

theorem renderRows_keys_of_present (t : Rat) (s : OverlayState) :
    ∀ L : List Key, (∀ k ∈ L, k ∈ dictKeys s.messages) →
      (L.filterMap (fun k =>
        match dictGet k s.messages with
        | none => none
        | some m => some (k, m, styleFor m t))).map (fun row => row.1) = L := by
  intro L
  induction L with
  | nil => simp
  | cons k rest ih =>
    intro h
    have hk := h k (List.mem_cons_self k rest)
    rcases (mem_dictKeys_iff k _).mp hk with ⟨v, hv⟩
    simp only [List.filterMap_cons, hv, List.map_cons]
    rw [ih (fun k2 hk2 => h k2 (List.mem_cons_of_mem _ hk2))]

theorem takeLast_reverse (n : Nat) (l : List Key) :
    (takeLast n l).reverse = l.reverse.take n := by
  unfold takeLast
  rw [List.take_reverse]

theorem renderRows_map_keys (t : Rat) (s : OverlayState)
    (h : ∀ k ∈ s.messageOrder, k ∈ dictKeys s.messages) :
    (renderRows t s).map (fun row => row.1) = s.messageOrder.reverse.take MAX_MESSAGES := by
  unfold renderRows
  rw [← takeLast_reverse]
  refine renderRows_keys_of_present t s _ ?_
  intro k hk
  refine h k ?_
  have h2 : k ∈ takeLast MAX_MESSAGES s.messageOrder := by
    rwa [List.mem_reverse] at hk
  exact (List.drop_sublist _ _).mem h2

theorem renderRows_length_le (t : Rat) (s : OverlayState) :
    (renderRows t s).length ≤ MAX_MESSAGES := by
  unfold renderRows
  refine le_trans (List.length_filterMap_le _ _) ?_
  rw [List.length_reverse]
  unfold takeLast
  rw [List.length_drop]
  omega

/-! ### Claims

The concrete instantiations below evaluate the embedded operations inside
`decide`; the kernel can do this only if the rational-arithmetic operations
(marked irreducible for the elaborator) are unsealed. -/

section ClaimsSection

set_option maxRecDepth 40000

attribute [local semireducible] Rat.add Rat.sub Rat.mul Rat.inv Rat.ofScientific

/-- C1, counterexample to the claim as stated: the 41 records of `recs41`
have 41 > 2 × display_limit distinct keys, and after applying them in one
drain the key (0, 0) is still in the Frame Store but no longer in the Recency
Tracker — so the Frame Store's key set is not a subset of the tracker's. -/
theorem recencyBound_counterexample :
    40 < recs41.length ∧ (recs41.map (fun r => (r.src, r.address))).Nodup ∧
    (0, 0) ∈ dictKeys s41.messages ∧ (0, 0) ∉ s41.messageOrder := by
  decide

/-- C1 (amended): after any drained record sequence from a reachable state,
the Recency Tracker holds at most 2 × display_limit keys, and the Recency
Tracker's keys are a subset of the Frame Store's keys (the converse of the
inclusion stated in the claim; the Frame Store may retain keys the bounded
deque has evicted). -/
theorem recencyBound_amended (s : OverlayState) (t : Rat)
    (drained : Except Unit (List SockMsg)) (h : Reachable s) :
    (updateMessages t drained s).messageOrder.length ≤ MAX_MESSAGES * 2 ∧
    ∀ k ∈ (updateMessages t drained s).messageOrder,
      k ∈ dictKeys (updateMessages t drained s).messages := by
  have hinv := reachable_inv _ (Reachable.update t drained h)
  exact ⟨hinv.2.1, hinv.2.2.1⟩

/-- C1 witness: the amended bound instantiated on the 41-distinct-key drain. -/
theorem recencyBound_amended_witness :
    (updateMessages 1 (.ok [.can recs41]) sActive).messageOrder.length ≤ MAX_MESSAGES * 2 ∧
    ∀ k ∈ (updateMessages 1 (.ok [.can recs41]) sActive).messageOrder,
      k ∈ dictKeys (updateMessages 1 (.ok [.can recs41]) sActive).messages :=
  recencyBound_amended sActive 1 (.ok [.can recs41]) (Reachable.check 1 true Reachable.init)

/-- C2: an erroring drain is absorbed inside `_update_messages` (the function
is total, no exception escapes) and leaves the overlay state exactly as it
was before the tick. -/
theorem drain_error_absorbed (s : OverlayState) (t : Rat) :
    updateMessages t (.error ()) s = s := by
  unfold updateMessages
  by_cases h : s.canSock = false
  · rw [if_pos h]
  · rw [if_neg h]

/-- C3: staleness is the strict comparison `now - timestamp > MESSAGE_TIMEOUT`
(so age exactly `MESSAGE_TIMEOUT` is not stale), and the per-tick sweep
removes exactly the frames whose age strictly exceeds the timeout, from both
the Frame Store and the Recency Tracker. -/
theorem staleness_sweep_exact (s : OverlayState) (t : Rat)
    (hnd : s.messageOrder.Nodup) (hknd : (dictKeys s.messages).Nodup) :
    (∀ (m : CANMessage) (t2 : Rat),
      m.is_stale t2 = true ↔ t2 - m.timestamp > MESSAGE_TIMEOUT) ∧
    (∀ (m : CANMessage) (t2 : Rat),
      t2 - m.timestamp = MESSAGE_TIMEOUT → m.is_stale t2 = false) ∧
    (∀ (k : Key) (v : CANMessage), dictGet k (sweepStale t s).messages = some v ↔
      dictGet k s.messages = some v ∧ v.is_stale t = false) ∧
    (∀ k : Key, k ∈ (sweepStale t s).messageOrder ↔
      k ∈ s.messageOrder ∧
        ¬ ∃ v, dictGet k s.messages = some v ∧ v.is_stale t = true) := by
  refine ⟨?_, ?_, fun k v => sweepStale_messages_iff t s hknd k v,
    fun k => sweepStale_order_iff t s hnd hknd k⟩
  · intro m t2
    simp [CANMessage.is_stale]
  · intro m t2 hb
    simp [CANMessage.is_stale, hb]

/-- C3 witness: the sweep of `sSweep` at time 5/2, where the frame stamped 0
(age 5/2 > 2) goes and the frame stamped 1 (age 3/2) stays. -/
theorem staleness_sweep_exact_witness :
    (∀ (m : CANMessage) (t2 : Rat),
      m.is_stale t2 = true ↔ t2 - m.timestamp > MESSAGE_TIMEOUT) ∧
    (∀ (m : CANMessage) (t2 : Rat),
      t2 - m.timestamp = MESSAGE_TIMEOUT → m.is_stale t2 = false) ∧
    (∀ (k : Key) (v : CANMessage), dictGet k (sweepStale (5/2) sSweep).messages = some v ↔
      dictGet k sSweep.messages = some v ∧ v.is_stale (5/2) = false) ∧
    (∀ k : Key, k ∈ (sweepStale (5/2) sSweep).messageOrder ↔
      k ∈ sSweep.messageOrder ∧
        ¬ ∃ v, dictGet k sSweep.messages = some v ∧ v.is_stale (5/2) = true) :=
  staleness_sweep_exact sSweep (5/2) (by decide) (by decide)

/-- C4: a poll that observes the flag false while the socket is held releases
the socket and empties both stores; the next poll observing true re-acquires
the socket with both stores still empty. -/
theorem gate_clearing (s : OverlayState) (t t2 : Rat)
    (htime : t - s.lastParamCheck > 1/2) (hsock : s.canSock = true)
    (htime2 : t2 - t > 1/2) :
    ((checkDebugEnabled t false s).2.canSock = false ∧
     (checkDebugEnabled t false s).2.messages = [] ∧
     (checkDebugEnabled t false s).2.messageOrder = []) ∧
    ((checkDebugEnabled t2 true (checkDebugEnabled t false s).2).2.canSock = true ∧
     (checkDebugEnabled t2 true (checkDebugEnabled t false s).2).2.messages = [] ∧
     (checkDebugEnabled t2 true (checkDebugEnabled t false s).2).2.messageOrder = []) := by
  have h1 : (checkDebugEnabled t false s).2 =
      { messages := [], messageOrder := [], canSock := false,
        debugEnabled := false, lastParamCheck := t } := by
    unfold checkDebugEnabled
    rw [if_pos htime]
    simp [hsock]
  have h2 : (checkDebugEnabled t2 true (checkDebugEnabled t false s).2).2 =
      { messages := [], messageOrder := [], canSock := true,
        debugEnabled := true, lastParamCheck := t2 } := by
    rw [h1]
    unfold checkDebugEnabled
    rw [if_pos (by simpa using htime2)]
    simp
  rw [h2, h1]
  exact ⟨⟨rfl, rfl, rfl⟩, ⟨rfl, rfl, rfl⟩⟩

/-- C4 witness: disabling at time 2 clears the populated state `sJunk`;
re-enabling at time 3 starts from empty. -/
theorem gate_clearing_witness :
    ((checkDebugEnabled 2 false sJunk).2.canSock = false ∧
     (checkDebugEnabled 2 false sJunk).2.messages = [] ∧
     (checkDebugEnabled 2 false sJunk).2.messageOrder = []) ∧
    ((checkDebugEnabled 3 true (checkDebugEnabled 2 false sJunk).2).2.canSock = true ∧
     (checkDebugEnabled 3 true (checkDebugEnabled 2 false sJunk).2).2.messages = [] ∧
     (checkDebugEnabled 3 true (checkDebugEnabled 2 false sJunk).2).2.messageOrder = []) :=
  gate_clearing sJunk 2 3 (by decide) (by decide) (by decide)

/-- C5: after a drain, the Frame Store has duplicate-free keys (one entry per
key) and the entry at a key equals the frame built from the last-applied
record for that key, stamped with the drain's ingestion time. -/
theorem dedup_last_write_wins (s : OverlayState) (t : Rat) (recs : List CanRecord)
    (k : Key) (r : CanRecord) (h : Reachable s) (hsock : s.canSock = true)
    (hlast : lastRecordForKey k recs = some r) :
    dictGet k (updateMessages t (.ok [.can recs]) s).messages = some (mkFrame t r) ∧
    (dictKeys (updateMessages t (.ok [.can recs]) s).messages).Nodup := by
  have hinv := reachable_inv s h
  have hupd : updateMessages t (.ok [.can recs]) s =
      sweepStale t (recs.foldl (applyRecord t) s) := by
    unfold updateMessages
    rw [hsock]
    simp [applyMsg]
  rw [hupd]
  have hinvFold : Inv (recs.foldl (applyRecord t) s) := inv_foldApply t recs s hinv
  have hfold := dictGet_foldApply k t recs s
  rw [hlast] at hfold
  simp only [Option.map_some, Option.or] at hfold
  have hfresh : (mkFrame t r).is_stale t = false := by
    simp [mkFrame, CANMessage.is_stale, MESSAGE_TIMEOUT]
  refine ⟨?_, (inv_sweepStale t _ hinvFold).2.2.2.1⟩
  rw [sweepStale_messages_iff t _ hinvFold.2.2.2.1]
  exact ⟨hfold, hfresh⟩

/-- C5 witness: the spec's scenario — two records for key (0, 0x123) in one
drain at t = 0.1 leave one entry holding the second payload `[0x33, 0x44]`
with timestamp 0.1. -/
theorem dedup_last_write_wins_witness :
    dictGet (0, 291) (updateMessages (1/10)
        (.ok [.can [⟨0, 291, [17, 34]⟩, ⟨0, 291, [51, 68]⟩]]) sActive).messages =
      some (mkFrame (1/10) ⟨0, 291, [51, 68]⟩) ∧
    (dictKeys (updateMessages (1/10)
        (.ok [.can [⟨0, 291, [17, 34]⟩, ⟨0, 291, [51, 68]⟩]]) sActive).messages).Nodup :=
  dedup_last_write_wins sActive (1/10) [⟨0, 291, [17, 34]⟩, ⟨0, 291, [51, 68]⟩]
    (0, 291) ⟨0, 291, [51, 68]⟩ (Reachable.check 1 true Reachable.init)
    (by decide) (by decide)

/-- C6: applying a record whose key is already tracked moves the key to the
most-recent end of the duplicate-free order deque, where it occurs exactly
once. -/
theorem move_to_front_no_dup (s : OverlayState) (r : CanRecord) (t : Rat)
    (hnd : s.messageOrder.Nodup) (hmem : (r.src, r.address) ∈ s.messageOrder) :
    (applyRecord t s r).messageOrder.getLast? = some (r.src, r.address) ∧
    (applyRecord t s r).messageOrder.count (r.src, r.address) = 1 ∧
    (applyRecord t s r).messageOrder.Nodup := by
  have horder : (applyRecord t s r).messageOrder =
      dequeAppend (MAX_MESSAGES * 2) (r.src, r.address)
        (dequeRemove (r.src, r.address) s.messageOrder) := by
    show dequeAppend (MAX_MESSAGES * 2) (r.src, r.address)
        (if (r.src, r.address) ∈ s.messageOrder then
          dequeRemove (r.src, r.address) s.messageOrder else s.messageOrder) = _
    rw [if_pos hmem]
  rw [horder]
  have hnotmem : (r.src, r.address) ∉ dequeRemove (r.src, r.address) s.messageOrder :=
    fun hc => ((mem_dequeRemove_of_nodup _ _ _ hnd).mp hc).2 rfl
  have hndA := nodup_dequeAppend (MAX_MESSAGES * 2) (r.src, r.address) _
    hnotmem (nodup_dequeRemove _ _ hnd)
  refine ⟨getLast_dequeAppend _ _ _ (by decide), ?_, hndA⟩
  exact count_one_of_nodup_mem _ _ hndA
    (mem_self_dequeAppend (MAX_MESSAGES * 2) (r.src, r.address) _ (by decide))

/-- C6 witness: moving the already-present key (0, 5) of `sOrder` to the
front. -/
theorem move_to_front_no_dup_witness :
    (applyRecord 0 sOrder ⟨0, 5, []⟩).messageOrder.getLast? = some ((⟨0, 5, []⟩ : CanRecord).src, (⟨0, 5, []⟩ : CanRecord).address) ∧
    (applyRecord 0 sOrder ⟨0, 5, []⟩).messageOrder.count ((⟨0, 5, []⟩ : CanRecord).src, (⟨0, 5, []⟩ : CanRecord).address) = 1 ∧
    (applyRecord 0 sOrder ⟨0, 5, []⟩).messageOrder.Nodup :=
  move_to_front_no_dup sOrder ⟨0, 5, []⟩ 0 (by decide) (by decide)

/-- C7: in every reachable state every tracked key has a Frame Store entry
(the converse is not required), and the renderer only produces rows for keys
whose entry is present — a tracker key without an entry is skipped, never an
error. -/
theorem tracker_subset_store (s : OverlayState) (h : Reachable s) :
    (∀ k ∈ s.messageOrder, k ∈ dictKeys s.messages) ∧
    (∀ (s2 : OverlayState) (t : Rat) (k : Key) (m : CANMessage) (st : Style),
      (k, m, st) ∈ renderRows t s2 → dictGet k s2.messages = some m) := by
  refine ⟨(reachable_inv s h).2.2.1, ?_⟩
  intro s2 t k m st hmem
  exact (mem_renderRows t s2 k m st hmem).1

/-- C7 witness: the containment instantiated on the reachable 41-key state. -/
theorem tracker_subset_store_witness :
    (∀ k ∈ s41.messageOrder, k ∈ dictKeys s41.messages) ∧
    (∀ (s2 : OverlayState) (t : Rat) (k : Key) (m : CANMessage) (st : Style),
      (k, m, st) ∈ renderRows t s2 → dictGet k s2.messages = some m) :=
  tracker_subset_store s41 (Reachable.update 1 _ (Reachable.check 1 true Reachable.init))

/-- C8: a render pass of a reachable state lists exactly the last
`MAX_MESSAGES` tracked keys in most-recent-first order, and (for any state at
all) never more than `MAX_MESSAGES` rows. -/
theorem display_cap_order (s : OverlayState) (t : Rat) (h : Reachable s) :
    (renderRows t s).map (fun row => row.1) = s.messageOrder.reverse.take MAX_MESSAGES ∧
    (∀ (s2 : OverlayState) (t2 : Rat), (renderRows t2 s2).length ≤ MAX_MESSAGES) := by
  refine ⟨renderRows_map_keys t s (reachable_inv s h).2.2.1, ?_⟩
  intro s2 t2
  exact renderRows_length_le t2 s2

/-- C8 witness: the cap and order instantiated on the reachable 50-key
state (whose snapshot has exactly 20 rows, the 20 most recent keys). -/
theorem display_cap_order_witness :
    (renderRows 1 s50).map (fun row => row.1) = s50.messageOrder.reverse.take MAX_MESSAGES ∧
    (∀ (s2 : OverlayState) (t2 : Rat), (renderRows t2 s2).length ≤ MAX_MESSAGES) :=
  display_cap_order s50 1 (Reachable.update 1 _ (Reachable.check 1 true Reachable.init))

/-- C9: the render pass (lines 156–190) threads the overlay state through
unchanged — it is a pure read — so rendering twice with no intervening drain
or sweep yields identical output. -/
theorem snapshot_pure (t : Rat) (s : OverlayState) :
    (renderPass t s).2 = s ∧
    (renderPass t ((renderPass t s).2)).1 = (renderPass t s).1 :=
  ⟨rfl, rfl⟩

/-- C10: every frame stored in a reachable state has `checksum_valid = true`
(the ingestion path never sets it false), so no rendered row is ever styled
with the invalid/error colour. -/
theorem invalid_style_unreachable (s : OverlayState) (h : Reachable s) :
    (∀ p ∈ s.messages, p.2.checksum_valid = true) ∧
    (∀ (t : Rat) (k : Key) (m : CANMessage) (st : Style),
      (k, m, st) ∈ renderRows t s → st ≠ Style.invalid) := by
  have hinv := reachable_inv s h
  refine ⟨hinv.2.2.2.2, ?_⟩
  intro t k m st hmem hcontra
  obtain ⟨hget, hst⟩ := mem_renderRows t s k m st hmem
  have hval : m.checksum_valid = true := hinv.2.2.2.2 (k, m) (dictGet_mem _ _ _ hget)
  rw [hst] at hcontra
  unfold styleFor at hcontra
  by_cases hstale : m.is_stale t = true
  · rw [if_pos hstale] at hcontra
    exact Style.noConfusion hcontra
  · rw [if_neg hstale, hval] at hcontra
    simp at hcontra

/-- C10 witness: instantiated on the reachable 50-key state. -/
theorem invalid_style_unreachable_witness :
    (∀ p ∈ s50.messages, p.2.checksum_valid = true) ∧
    (∀ (t : Rat) (k : Key) (m : CANMessage) (st : Style),
      (k, m, st) ∈ renderRows t s50 → st ≠ Style.invalid) :=
  invalid_style_unreachable s50 (Reachable.update 1 _ (Reachable.check 1 true Reachable.init))

end ClaimsSection

end CanOverlay
